import Mathlib

/-
Verification development for the mylexer repository (src/lib.rs).

The lexer is embedded shallowly: the input buffer is a list of byte
values (Nat, each entry a byte 0..255), token values are the raw byte
slices that the Rust code decodes with String.from_utf8_lossy (the
claims are stated modulo that lossy decoding, so the byte slice is the
faithful carrier), and the three scanning loops are translated with an
explicit fuel of maxPosition - position. That fuel is exact: every
iteration of each loop in the source advances position by one and is
only taken when the current byte is nonzero or has_next holds, both of
which force position < maxPosition, so the fuel never runs out before
the loop condition fails.
-/

namespace Mylexer

/-- Byte class of u8.is_ascii_alphabetic in the source. -/
abbrev isAsciiAlphabetic (b : Nat) : Prop :=
  (65 ≤ b ∧ b ≤ 90) ∨ (97 ≤ b ∧ b ≤ 122)

/-- Byte class of u8.is_ascii_digit in the source. -/
abbrev isAsciiDigit (b : Nat) : Prop :=
  48 ≤ b ∧ b ≤ 57

/-- Byte class of u8.is_ascii_punctuation in the source. -/
abbrev isAsciiPunctuation (b : Nat) : Prop :=
  (33 ≤ b ∧ b ≤ 47) ∨ (58 ≤ b ∧ b ≤ 64) ∨ (91 ≤ b ∧ b ≤ 96) ∨ (123 ≤ b ∧ b ≤ 126)

/-- Byte class of u8.is_ascii_whitespace in the source: space, tab,
line feed, form feed, carriage return. -/
abbrev isAsciiWhitespace (b : Nat) : Prop :=
  b = 32 ∨ b = 9 ∨ b = 10 ∨ b = 12 ∨ b = 13

/-- TokenKind from the source, all eight variants. -/
inductive TokenKind where
  | Whitespace
  | Invalid
  | Null
  | Int
  | Float
  | Identifier
  | Ponct
  | Op
deriving DecidableEq, Repr

/-- Token from the source; value carries the raw bytes of the consumed
slice (the source stores their lossy UTF-8 decoding), loc is (row, col). -/
structure Token where
  kind : TokenKind
  value : List Nat
  loc : Nat × Nat
deriving DecidableEq, Repr

/-- Lexer state from the source. -/
structure Lexer where
  input : List Nat
  maxPosition : Nat
  position : Nat
  col : Nat
  row : Nat
deriving DecidableEq, Repr

/-- Lexer.new: position 0, col 1, row 1, maxPosition = input length. -/
def Lexer.new (inp : List Nat) : Lexer :=
  { input := inp, maxPosition := inp.length, position := 0, col := 1, row := 1 }

/-- Lexer.has_next. -/
def Lexer.hasNext (l : Lexer) : Prop :=
  l.position < l.maxPosition

instance (l : Lexer) : Decidable l.hasNext := by
  unfold Lexer.hasNext; infer_instance

/-- Lexer.current_byte: the byte at position if has_next, else 0. -/
def Lexer.currentByte (l : Lexer) : Nat :=
  if l.hasNext then l.input.getD l.position 0 else 0

/-- Lexer.peek. -/
def Lexer.peek (l : Lexer) (offset : Nat) : Nat :=
  if l.position + offset < l.maxPosition then l.input.getD (l.position + offset) 0 else 0

/-- Lexer.next_byte = peek 1. -/
def Lexer.nextByte (l : Lexer) : Nat :=
  l.peek 1

/-- Lexer.advance_char: position and col both increase by one. -/
def Lexer.advanceChar (l : Lexer) : Lexer :=
  { l with position := l.position + 1, col := l.col + 1 }

/-- Lexer.slice_string start stop: the byte slice input[start..stop]
(the source decodes it lossily to a String; we keep the bytes). -/
def Lexer.sliceString (l : Lexer) (start stop : Nat) : List Nat :=
  (l.input.drop start).take (stop - start)

/-- The while loop of Lexer.whitespace. Only space, tab and carriage
return advance via advance_char; a line feed also increments row; any
other byte (including form feed 12, which the dispatch guard counts as
whitespace) breaks the loop. Fuel maxPosition - position is exact since
every iteration requires has_next and advances position by one. -/
def Lexer.wsLoop : Nat → Lexer → Lexer
  | 0, l => l
  | fuel + 1, l =>
    if l.hasNext then
      if l.currentByte = 32 ∨ l.currentByte = 9 ∨ l.currentByte = 13 then
        Lexer.wsLoop fuel l.advanceChar
      else if l.currentByte = 10 then
        Lexer.wsLoop fuel { l with position := l.position + 1, col := l.col + 1, row := l.row + 1 }
      else l
    else l

/-- Lexer.token: reads the slice from start to the current position. -/
def Lexer.token (l : Lexer) (kind : TokenKind) (start : Nat) : Token :=
  Token.mk kind (l.sliceString start l.position) (l.row, l.col)

/-- Lexer.whitespace: runs the loop then emits the Whitespace token. -/
def Lexer.whitespace (l : Lexer) : Token × Lexer :=
  let start := l.position
  let l2 := Lexer.wsLoop (l.maxPosition - l.position) l
  (Token.mk TokenKind.Whitespace (l2.sliceString start l2.position) (l2.row, l2.col), l2)

/-- The loop of Lexer.number: digits keep scanning, a dot whose next
byte is a digit switches the kind to Float and keeps scanning, anything
else breaks. position += 1 directly, so col is untouched. Fuel is exact
as for wsLoop: each iteration needs a digit or dot at position, which
forces has_next since current_byte is 0 past the end. -/
def Lexer.numLoop : Nat → Lexer → TokenKind → Lexer × TokenKind
  | 0, l, kind => (l, kind)
  | fuel + 1, l, kind =>
    if isAsciiDigit l.currentByte then
      Lexer.numLoop fuel { l with position := l.position + 1 } kind
    else if l.currentByte = 46 ∧ isAsciiDigit l.nextByte then
      Lexer.numLoop fuel { l with position := l.position + 1 } TokenKind.Float
    else (l, kind)

/-- Lexer.number. -/
def Lexer.number (l : Lexer) : Token × Lexer :=
  let start := l.position
  let p := Lexer.numLoop (l.maxPosition - l.position) l TokenKind.Int
  (p.1.token p.2 start, p.1)

/-- The loop of Lexer.identifier: letters and underscore keep scanning.
position += 1 directly, so col is untouched. Fuel exact as above. -/
def Lexer.idLoop : Nat → Lexer → Lexer
  | 0, l => l
  | fuel + 1, l =>
    if isAsciiAlphabetic l.currentByte ∨ l.currentByte = 95 then
      Lexer.idLoop fuel { l with position := l.position + 1 }
    else l

/-- Lexer.identifier, with the start position passed by the caller. -/
def Lexer.identifier (l : Lexer) (start : Nat) : Token × Lexer :=
  let l2 := Lexer.idLoop (l.maxPosition - l.position) l
  (l2.token TokenKind.Identifier start, l2)

/-- Lexer.invalid: slices start..stop, then jumps position to
maxPosition, permanently ending the scan. -/
def Lexer.invalid (l : Lexer) (start stop : Nat) : Token × Lexer :=
  (Token.mk TokenKind.Invalid (l.sliceString start stop) (l.row, l.col),
    { l with position := l.maxPosition })

/-- Lexer.null: a Null token with empty value at the current loc. -/
def Lexer.null (l : Lexer) : Token :=
  Token.mk TokenKind.Null [] (l.row, l.col)

/-- Lexer.next: the dispatch on current_byte, in source order:
letter or underscore, digit, punctuation (one byte, position += 1
without touching col), whitespace, and otherwise Invalid when input
remains and Null at end of input. -/
def Lexer.next (l : Lexer) : Token × Lexer :=
  if isAsciiAlphabetic l.currentByte ∨ l.currentByte = 95 then
    l.identifier l.position
  else if isAsciiDigit l.currentByte then
    l.number
  else if isAsciiPunctuation l.currentByte then
    (Token.mk TokenKind.Ponct [l.currentByte] (l.row, l.col),
      { l with position := l.position + 1 })
  else if isAsciiWhitespace l.currentByte then
    l.whitespace
  else if l.hasNext then
    l.invalid l.position (l.position + 1)
  else
    (l.null, l)

/-- The first n tokens produced by successive next calls. -/
def Lexer.run : Nat → Lexer → List Token
  | 0, _ => []
  | n + 1, l => (l.next).1 :: Lexer.run n (l.next).2

/-- The lexer state after n next calls. -/
def Lexer.runState : Nat → Lexer → Lexer
  | 0, l => l
  | n + 1, l => Lexer.runState n (l.next).2

/-- A terminal token ends productive scanning: Invalid or Null. -/
abbrev isTerminal (t : Token) : Prop :=
  t.kind = TokenKind.Invalid ∨ t.kind = TokenKind.Null

/-- Concatenated values of the tokens before the first terminal one. -/
def valuesBeforeTerminal : List Token → List Nat
  | [] => []
  | t :: ts => if isTerminal t then [] else t.value ++ valuesBeforeTerminal ts

/-- Well-formedness of a lexer state: maxPosition is the buffer length
(true from construction on, the buffer is immutable) and the cursor is
within bounds. -/
def Lexer.Wf (l : Lexer) : Prop :=
  l.maxPosition = l.input.length ∧ l.position ≤ l.maxPosition

/-- A nonzero current byte implies input remains: past the end the
current byte is hardwired to 0. -/
lemma currentByte_pos (l : Lexer) (h : 0 < l.currentByte) :
    l.position < l.maxPosition := by
  by_contra hge
  have hn : ¬ l.hasNext := by unfold Lexer.hasNext; omega
  unfold Lexer.currentByte at h
  rw [if_neg hn] at h
  omega

/-- Within bounds, the current byte is the buffer entry at position. -/
lemma currentByte_eq_getD (l : Lexer) (h : l.position < l.maxPosition) :
    l.currentByte = l.input.getD l.position 0 := by
  unfold Lexer.currentByte
  exact if_pos h

/-- At or past the end, the current byte is 0. -/
lemma currentByte_at_end (l : Lexer) (h : l.maxPosition ≤ l.position) :
    l.currentByte = 0 := by
  have hn : ¬ l.hasNext := by unfold Lexer.hasNext; omega
  unfold Lexer.currentByte
  exact if_neg hn

/-- Frame and bound facts for the identifier loop: buffer, maxPosition,
col and row are untouched, position only moves forward and stays in
bounds. -/
lemma idLoop_spec : ∀ (fuel : Nat) (l : Lexer),
    (Lexer.idLoop fuel l).input = l.input ∧
    (Lexer.idLoop fuel l).maxPosition = l.maxPosition ∧
    (Lexer.idLoop fuel l).col = l.col ∧
    (Lexer.idLoop fuel l).row = l.row ∧
    l.position ≤ (Lexer.idLoop fuel l).position ∧
    (l.position ≤ l.maxPosition → (Lexer.idLoop fuel l).position ≤ l.maxPosition) := by
  intro fuel
  induction fuel with
  | zero => intro l; simp [Lexer.idLoop]
  | succ n ih =>
    intro l
    rw [Lexer.idLoop]
    split_ifs with h
    · have hcb : 0 < l.currentByte := by
        rcases h with h | h
        · rcases h with h | h <;> omega
        · omega
      have hlt : l.position < l.maxPosition := currentByte_pos l hcb
      obtain ⟨h1, h2, h3, h4, h5, h6⟩ := ih { l with position := l.position + 1 }
      have h5a : l.position + 1 ≤ (Lexer.idLoop n { l with position := l.position + 1 }).position := h5
      have h6a : (Lexer.idLoop n { l with position := l.position + 1 }).position ≤ l.maxPosition :=
        h6 (show l.position + 1 ≤ l.maxPosition by omega)
      exact ⟨h1, h2, h3, h4, by omega, fun _ => h6a⟩
    · simp

/-- Frame and bound facts for the number loop, plus the fact that the
resulting kind is the incoming one or Float. -/
lemma numLoop_spec : ∀ (fuel : Nat) (l : Lexer) (kind : TokenKind),
    (Lexer.numLoop fuel l kind).1.input = l.input ∧
    (Lexer.numLoop fuel l kind).1.maxPosition = l.maxPosition ∧
    (Lexer.numLoop fuel l kind).1.col = l.col ∧
    (Lexer.numLoop fuel l kind).1.row = l.row ∧
    l.position ≤ (Lexer.numLoop fuel l kind).1.position ∧
    (l.position ≤ l.maxPosition → (Lexer.numLoop fuel l kind).1.position ≤ l.maxPosition) ∧
    ((Lexer.numLoop fuel l kind).2 = kind ∨ (Lexer.numLoop fuel l kind).2 = TokenKind.Float) := by
  intro fuel
  induction fuel with
  | zero => intro l kind; simp [Lexer.numLoop]
  | succ n ih =>
    intro l kind
    rw [Lexer.numLoop]
    split_ifs with h h2
    · have hlt : l.position < l.maxPosition := currentByte_pos l (by omega)
      obtain ⟨h1, h2, h3, h4, h5, h6, h7⟩ := ih { l with position := l.position + 1 } kind
      have h5a : l.position + 1 ≤ (Lexer.numLoop n { l with position := l.position + 1 } kind).1.position := h5
      have h6a : (Lexer.numLoop n { l with position := l.position + 1 } kind).1.position ≤ l.maxPosition :=
        h6 (show l.position + 1 ≤ l.maxPosition by omega)
      exact ⟨h1, h2, h3, h4, by omega, fun _ => h6a, h7⟩
    · have hlt : l.position < l.maxPosition := currentByte_pos l (by omega)
      obtain ⟨h1, h2a, h3, h4, h5, h6, h7⟩ := ih { l with position := l.position + 1 } TokenKind.Float
      have h5a : l.position + 1 ≤ (Lexer.numLoop n { l with position := l.position + 1 } TokenKind.Float).1.position := h5
      have h6a : (Lexer.numLoop n { l with position := l.position + 1 } TokenKind.Float).1.position ≤ l.maxPosition :=
        h6 (show l.position + 1 ≤ l.maxPosition by omega)
      refine ⟨h1, h2a, h3, h4, by omega, fun _ => h6a, ?_⟩
      rcases h7 with h7 | h7 <;> exact Or.inr h7
    · simp

/-- Frame and bound facts for the whitespace loop: buffer and
maxPosition are untouched, position only moves forward and stays in
bounds, and col advances in lockstep with position (advance_char). -/
lemma wsLoop_spec : ∀ (fuel : Nat) (l : Lexer),
    (Lexer.wsLoop fuel l).input = l.input ∧
    (Lexer.wsLoop fuel l).maxPosition = l.maxPosition ∧
    l.position ≤ (Lexer.wsLoop fuel l).position ∧
    (l.position ≤ l.maxPosition → (Lexer.wsLoop fuel l).position ≤ l.maxPosition) ∧
    (Lexer.wsLoop fuel l).col + l.position = l.col + (Lexer.wsLoop fuel l).position := by
  intro fuel
  induction fuel with
  | zero => intro l; simp [Lexer.wsLoop]
  | succ n ih =>
    intro l
    rw [Lexer.wsLoop]
    split_ifs with hn h h10
    · have hlt : l.position < l.maxPosition := hn
      obtain ⟨h1, h2, h3, h4, h5⟩ := ih l.advanceChar
      have h3a : l.position + 1 ≤ (Lexer.wsLoop n l.advanceChar).position := h3
      have h4a : (Lexer.wsLoop n l.advanceChar).position ≤ l.maxPosition :=
        h4 (show l.position + 1 ≤ l.maxPosition by omega)
      have h5a : (Lexer.wsLoop n l.advanceChar).col + (l.position + 1) =
          (l.col + 1) + (Lexer.wsLoop n l.advanceChar).position := h5
      exact ⟨h1, h2, by omega, fun _ => h4a, by omega⟩
    · have hlt : l.position < l.maxPosition := hn
      obtain ⟨h1, h2, h3, h4, h5⟩ := ih { l with position := l.position + 1, col := l.col + 1, row := l.row + 1 }
      have h3a : l.position + 1 ≤
          (Lexer.wsLoop n { l with position := l.position + 1, col := l.col + 1, row := l.row + 1 }).position := h3
      have h4a : (Lexer.wsLoop n { l with position := l.position + 1, col := l.col + 1, row := l.row + 1 }).position ≤ l.maxPosition :=
        h4 (show l.position + 1 ≤ l.maxPosition by omega)
      have h5a : (Lexer.wsLoop n { l with position := l.position + 1, col := l.col + 1, row := l.row + 1 }).col + (l.position + 1) =
          (l.col + 1) + (Lexer.wsLoop n { l with position := l.position + 1, col := l.col + 1, row := l.row + 1 }).position := h5
      exact ⟨h1, h2, by omega, fun _ => h4a, by omega⟩
    · simp
    · simp

/-- One take of one element at an in-bounds position. -/
lemma take_one_drop (xs : List Nat) (p : Nat) (h : p < xs.length) :
    (xs.drop p).take 1 = [xs.getD p 0] := by
  rw [List.drop_eq_getElem_cons h, List.getD_eq_getElem?_getD, List.getElem?_eq_getElem h]
  rfl

/-- Slicing out of equal buffers gives equal slices. -/
lemma slice_congr {a b : List Nat} (h : a = b) (s t : Nat) :
    (a.drop s).take t = (b.drop s).take t := by rw [h]

/-- Frame facts for a single next call on a well-formed state: the
buffer and maxPosition are unchanged, position moves forward and stays
in bounds, and the value of a non-terminal token is exactly the byte
slice from the old position to the new one. -/
lemma next_frame (l : Lexer) (hwf : l.Wf) :
    (l.next).2.input = l.input ∧
    (l.next).2.maxPosition = l.maxPosition ∧
    l.position ≤ (l.next).2.position ∧
    (l.next).2.position ≤ l.maxPosition ∧
    (¬ isTerminal (l.next).1 →
      (l.next).1.value = (l.input.drop l.position).take ((l.next).2.position - l.position)) := by
  obtain ⟨hlen, hple⟩ := hwf
  unfold Lexer.next
  split_ifs with h1 h2 h3 h4 h5
  · obtain ⟨g1, g2, g3, g4, g5, g6⟩ := idLoop_spec (l.maxPosition - l.position) l
    exact ⟨g1, g2, g5, g6 hple, fun _ => slice_congr g1 _ _⟩
  · obtain ⟨g1, g2, g3, g4, g5, g6, g7⟩ := numLoop_spec (l.maxPosition - l.position) l TokenKind.Int
    exact ⟨g1, g2, g5, g6 hple, fun _ => slice_congr g1 _ _⟩
  · have hcb : 0 < l.currentByte := by
      rcases h3 with h | h | h | h <;> omega
    have hlt : l.position < l.maxPosition := currentByte_pos l hcb
    have hinb : l.position < l.input.length := by omega
    refine ⟨rfl, rfl, Nat.le_succ _, hlt, fun _ => ?_⟩
    have hone : l.position + 1 - l.position = 1 := by omega
    show [l.currentByte] = (l.input.drop l.position).take (l.position + 1 - l.position)
    rw [hone, take_one_drop l.input l.position hinb, currentByte_eq_getD l hlt]
  · obtain ⟨g1, g2, g3, g4, g5⟩ := wsLoop_spec (l.maxPosition - l.position) l
    exact ⟨g1, g2, g3, g4 hple, fun _ => slice_congr g1 _ _⟩
  · exact ⟨rfl, rfl, hple, le_refl _, fun hnt => (hnt (Or.inl rfl)).elim⟩
  · exact ⟨rfl, rfl, le_refl _, hple, fun hnt => (hnt (Or.inr rfl)).elim⟩

/-- A next call preserves well-formedness. -/
lemma next_wf (l : Lexer) (hwf : l.Wf) : (l.next).2.Wf := by
  obtain ⟨f1, f2, f3, f4, f5⟩ := next_frame l hwf
  exact ⟨by rw [f2, f1]; exact hwf.1, by rw [f2]; exact f4⟩

/-- At or past the end of the buffer, next returns a Null token with
empty value and leaves the state exactly as it was. -/
lemma next_at_end (l : Lexer) (h : l.maxPosition ≤ l.position) :
    l.next = (Token.mk TokenKind.Null [] (l.row, l.col), l) := by
  have hcb : l.currentByte = 0 := currentByte_at_end l h
  have hn : ¬ l.hasNext := by unfold Lexer.hasNext; omega
  unfold Lexer.next
  rw [hcb]
  simp only [isAsciiAlphabetic, isAsciiDigit, isAsciiPunctuation, isAsciiWhitespace, Lexer.null]
  norm_num [hn]

/-- At or past the end of the buffer, every run of calls produces only
the same Null token. -/
lemma run_at_end (l : Lexer) (h : l.maxPosition ≤ l.position) (n : Nat) :
    Lexer.run n l = List.replicate n (Token.mk TokenKind.Null [] (l.row, l.col)) := by
  induction n with
  | zero => rfl
  | succ m ih =>
    rw [Lexer.run, next_at_end l h, List.replicate_succ]
    exact congrArg (List.cons _) ih

/-- Unfolding the state iteration from the far end. -/
lemma runState_succ (n : Nat) : ∀ (l : Lexer),
    Lexer.runState (n + 1) l = ((Lexer.runState n l).next).2 := by
  induction n with
  | zero => intro l; rfl
  | succ m ih =>
    intro l
    have hstep : Lexer.runState (m + 1 + 1) l = Lexer.runState (m + 1) (l.next).2 := rfl
    rw [hstep, ih ((l.next).2)]
    rfl

/-- Iterated next calls preserve well-formedness. -/
lemma runState_wf (n : Nat) : ∀ l : Lexer, l.Wf → (Lexer.runState n l).Wf := by
  induction n with
  | zero => intro l h; exact h
  | succ m ih => intro l h; exact ih _ (next_wf l h)

/-- Iterated next calls keep the buffer and maxPosition unchanged. -/
lemma runState_frame (n : Nat) : ∀ l : Lexer, l.Wf →
    (Lexer.runState n l).input = l.input ∧
    (Lexer.runState n l).maxPosition = l.maxPosition := by
  induction n with
  | zero => intro l _; exact ⟨rfl, rfl⟩
  | succ m ih =>
    intro l h
    obtain ⟨f1, f2, _, _, _⟩ := next_frame l h
    obtain ⟨g1, g2⟩ := ih (l.next).2 (next_wf l h)
    exact ⟨g1.trans f1, g2.trans f2⟩

/-- The bytes covered by the tokens emitted before the first terminal
token, appended after the already-consumed region, form an initial
segment of the buffer. -/
lemma run_coverage : ∀ (n : Nat) (l : Lexer), l.Wf →
    ∃ k, l.position ≤ k ∧ k ≤ l.input.length ∧
      l.input.take l.position ++ valuesBeforeTerminal (Lexer.run n l) = l.input.take k := by
  intro n
  induction n with
  | zero =>
    intro l hwf
    exact ⟨l.position, le_refl _, hwf.1 ▸ hwf.2, by simp [Lexer.run, valuesBeforeTerminal]⟩
  | succ m ih =>
    intro l hwf
    by_cases ht : isTerminal (l.next).1
    · refine ⟨l.position, le_refl _, hwf.1 ▸ hwf.2, ?_⟩
      rw [Lexer.run, valuesBeforeTerminal, if_pos ht]
      simp
    · obtain ⟨f1, f2, f3, f4, f5⟩ := next_frame l hwf
      have hwf2 := next_wf l hwf
      obtain ⟨k, hk1, hk2, hk3⟩ := ih (l.next).2 hwf2
      have hval := f5 ht
      have hnp : (l.next).2.position = l.position + ((l.next).2.position - l.position) := by omega
      have hsplit : l.input.take (l.next).2.position =
          l.input.take l.position ++ (l.next).1.value := by
        calc l.input.take (l.next).2.position
            = l.input.take (l.position + ((l.next).2.position - l.position)) := by rw [← hnp]
          _ = l.input.take l.position ++
              (l.input.drop l.position).take ((l.next).2.position - l.position) :=
            List.take_add _ _ _
          _ = l.input.take l.position ++ (l.next).1.value := by rw [hval]
      refine ⟨k, le_trans f3 hk1, ?_, ?_⟩
      · rw [f1] at hk2
        exact hk2
      · rw [Lexer.run, valuesBeforeTerminal, if_neg ht, ← List.append_assoc, ← hsplit]
        rw [f1] at hk3
        exact hk3

/-- C1: for every byte buffer and any number of next calls, the
concatenation of the token values emitted before the first Invalid or
Null token is exactly an initial segment of the buffer (the source
decodes each value lossily from these very bytes, so this is the
claimed byte-for-byte prefix property modulo lossy decoding). -/
theorem C1_coverage (inp : List Nat) (n : Nat) :
    ∃ k, k ≤ inp.length ∧
      valuesBeforeTerminal (Lexer.run n (Lexer.new inp)) = inp.take k := by
  obtain ⟨k, _, hk2, hk3⟩ := run_coverage n (Lexer.new inp) ⟨rfl, Nat.zero_le _⟩
  refine ⟨k, hk2, ?_⟩
  simpa [Lexer.new] using hk3

/-- C2: the claim fails on the code. On the one-byte buffer holding a
form feed (byte 12), the dispatch guard classifies the byte as
whitespace but the whitespace loop consumes only bytes 32, 9, 13 and
10, so next returns a Whitespace token with empty value without moving
the cursor: the very first call already violates the claimed strict
advance, and every run of n calls is n copies of that empty Whitespace
token, so a Null token is never produced. -/
theorem C2_formfeed_nontermination :
    (Lexer.next (Lexer.new [12])).2 = Lexer.new [12] ∧
    ∀ n, Lexer.run n (Lexer.new [12]) =
      List.replicate n (Token.mk TokenKind.Whitespace [] (1, 1)) := by
  have hstep : Lexer.next (Lexer.new [12]) =
      (Token.mk TokenKind.Whitespace [] (1, 1), Lexer.new [12]) := by decide
  refine ⟨by rw [hstep], ?_⟩
  intro n
  induction n with
  | zero => rfl
  | succ m ih =>
    rw [Lexer.run, hstep, List.replicate_succ]
    exact congrArg (List.cons _) ih

/-- C3: when input remains and the current byte is in none of the four
recognized classes (letter, underscore, digit, punctuation,
whitespace), next produces an Invalid token whose value is exactly that
one byte and jumps the cursor to the end of the buffer, after which
every further call returns Null, whatever bytes remain. -/
theorem C3_invalid_jump (l : Lexer) (hwf : l.Wf) (hrem : l.position < l.maxPosition)
    (h1 : ¬ isAsciiAlphabetic l.currentByte) (h2 : l.currentByte ≠ 95)
    (h3 : ¬ isAsciiDigit l.currentByte) (h4 : ¬ isAsciiPunctuation l.currentByte)
    (h5 : ¬ isAsciiWhitespace l.currentByte) :
    (l.next).1.kind = TokenKind.Invalid ∧
    (l.next).1.value = [l.input.getD l.position 0] ∧
    (l.next).2.position = l.input.length ∧
    ∀ n, Lexer.run n (l.next).2 =
      List.replicate n (Token.mk TokenKind.Null [] (l.row, l.col)) := by
  have hcond1 : ¬ (isAsciiAlphabetic l.currentByte ∨ l.currentByte = 95) := by
    rintro (h | h)
    · exact h1 h
    · exact h2 h
  have hnext : l.next = l.invalid l.position (l.position + 1) := by
    unfold Lexer.next
    rw [if_neg hcond1, if_neg h3, if_neg h4, if_neg h5, if_pos (show l.hasNext from hrem)]
  rw [hnext]
  refine ⟨rfl, ?_, ?_, ?_⟩
  · show (l.input.drop l.position).take (l.position + 1 - l.position) = [l.input.getD l.position 0]
    have hone : l.position + 1 - l.position = 1 := by omega
    have hinb : l.position < l.input.length := by
      have := hwf.1
      omega
    rw [hone, take_one_drop l.input l.position hinb]
  · exact hwf.1
  · intro n
    exact run_at_end _ (le_refl _) n

/-- Witness for C3 at the concrete buffer [1, 97]: byte 1 is in no
class, the Invalid token covers exactly that byte, and the cursor jumps
past the well-formed byte 97 to the end. -/
theorem C3_invalid_jump_w :
    (Lexer.new [1, 97]).Wf ∧
    (Lexer.next (Lexer.new [1, 97])).1.kind = TokenKind.Invalid ∧
    (Lexer.next (Lexer.new [1, 97])).1.value = [1] ∧
    (Lexer.next (Lexer.new [1, 97])).2.position = 2 := by
  have h := C3_invalid_jump (Lexer.new [1, 97]) ⟨rfl, by decide⟩ (by decide)
    (by decide) (by decide) (by decide) (by decide) (by decide)
  exact ⟨⟨rfl, by decide⟩, h.1, h.2.1, h.2.2.1⟩

/-- C4 as stated is refuted: on the buffer [97] one next call consumes
one byte (position moves from 0 to 1) yet col stays 1, not
1 + 1, because the identifier rule advances position directly without
the advance primitive. -/
theorem C4_counterexample :
    (Lexer.next (Lexer.new [97])).2.position = 1 ∧
    (Lexer.next (Lexer.new [97])).2.col = 1 ∧
    ¬ (Lexer.next (Lexer.new [97])).2.col =
        1 + (Lexer.next (Lexer.new [97])).2.position := by
  decide

/-- C4 amended: col is incremented once per byte consumed through
advance_char, and only the whitespace rule uses that primitive. A next
call returning a Whitespace token increases col by exactly the length
of the token value; a call returning any other kind leaves col
unchanged (identifier, number and punctuation scanning bump position
directly, and the Invalid jump and Null do not touch col). Newlines
never reset col. -/
theorem C4_col_whitespace_only (l : Lexer) (hwf : l.Wf) :
    ((l.next).1.kind = TokenKind.Whitespace →
      (l.next).2.col = l.col + (l.next).1.value.length) ∧
    ((l.next).1.kind ≠ TokenKind.Whitespace → (l.next).2.col = l.col) := by
  obtain ⟨hlen, hple⟩ := hwf
  unfold Lexer.next
  split_ifs with h1 h2 h3 h4 h5
  · obtain ⟨g1, g2, g3, g4, g5, g6⟩ := idLoop_spec (l.maxPosition - l.position) l
    exact ⟨fun hk => TokenKind.noConfusion hk, fun _ => g3⟩
  · obtain ⟨g1, g2, g3, g4, g5, g6, g7⟩ := numLoop_spec (l.maxPosition - l.position) l TokenKind.Int
    refine ⟨fun hk => ?_, fun _ => g3⟩
    have hk2 : (Lexer.numLoop (l.maxPosition - l.position) l TokenKind.Int).2 =
        TokenKind.Whitespace := hk
    rcases g7 with g | g <;> rw [g] at hk2 <;> exact TokenKind.noConfusion hk2
  · exact ⟨fun hk => hk.elim, fun _ => rfl⟩
  · obtain ⟨g1, g2, g3, g4, g5⟩ := wsLoop_spec (l.maxPosition - l.position) l
    refine ⟨fun _ => ?_, fun hk => (hk rfl).elim⟩
    have hval : (l.whitespace).1.value =
        ((Lexer.wsLoop (l.maxPosition - l.position) l).input.drop l.position).take
          ((Lexer.wsLoop (l.maxPosition - l.position) l).position - l.position) := rfl
    have hcol : (l.whitespace).2.col = (Lexer.wsLoop (l.maxPosition - l.position) l).col := rfl
    rw [hcol, hval, List.length_take, List.length_drop, g1]
    have h4a := g4 hple
    omega
  · exact ⟨fun hk => TokenKind.noConfusion hk, fun _ => rfl⟩
  · exact ⟨fun hk => TokenKind.noConfusion hk, fun _ => rfl⟩

/-- Witness for the amended C4 at the buffer [32, 97]: the first call
returns Whitespace with value [32] and col moves from 1 to
1 + 1; the non-Whitespace implication is vacuous there. -/
theorem C4_col_whitespace_only_w :
    (Lexer.new [32, 97]).Wf ∧
    (((Lexer.next (Lexer.new [32, 97])).1.kind = TokenKind.Whitespace →
        (Lexer.next (Lexer.new [32, 97])).2.col =
          1 + (Lexer.next (Lexer.new [32, 97])).1.value.length) ∧
      ((Lexer.next (Lexer.new [32, 97])).1.kind ≠ TokenKind.Whitespace →
        (Lexer.next (Lexer.new [32, 97])).2.col = 1)) :=
  ⟨⟨rfl, by decide⟩, C4_col_whitespace_only (Lexer.new [32, 97]) ⟨rfl, by decide⟩⟩

/-- C5: the buffer "3." (bytes 51, 46) yields an Int token "3" then a
Ponct token "."; the buffer "3.5" (bytes 51, 46, 53) yields one Float
token "3.5". -/
theorem C5_numeric_tiebreak :
    Lexer.run 2 (Lexer.new [51, 46]) =
      [Token.mk TokenKind.Int [51] (1, 1), Token.mk TokenKind.Ponct [46] (1, 1)] ∧
    Lexer.run 1 (Lexer.new [51, 46, 53]) =
      [Token.mk TokenKind.Float [51, 46, 53] (1, 1)] := by
  decide

/-- C6: the buffer "abc123" (bytes 97, 98, 99, 49, 50, 51) yields an
Identifier token "abc" then an Int token "123": a digit terminates an
identifier run and starts a number token. -/
theorem C6_identifier_digit_boundary :
    Lexer.run 2 (Lexer.new [97, 98, 99, 49, 50, 51]) =
      [Token.mk TokenKind.Identifier [97, 98, 99] (1, 1),
       Token.mk TokenKind.Int [49, 50, 51] (1, 1)] := by
  decide

/-- C7: position starts at 0 on construction, never exceeds the buffer
length after any number of calls, and is non-decreasing from each call
to the next. -/
theorem C7_position_invariant (inp : List Nat) (n : Nat) :
    (Lexer.new inp).position = 0 ∧
    (Lexer.runState n (Lexer.new inp)).position ≤ inp.length ∧
    (Lexer.runState n (Lexer.new inp)).position ≤
      (Lexer.runState (n + 1) (Lexer.new inp)).position := by
  have hwf0 : (Lexer.new inp).Wf := ⟨rfl, Nat.zero_le _⟩
  have hwfn := runState_wf n (Lexer.new inp) hwf0
  obtain ⟨hin, hmax⟩ := runState_frame n (Lexer.new inp) hwf0
  refine ⟨rfl, ?_, ?_⟩
  · have hb := hwfn.2
    rw [hwfn.1, hin] at hb
    exact hb
  · rw [runState_succ n (Lexer.new inp)]
    exact (next_frame _ hwfn).2.2.1

/-- C8: no next call ever returns a token of kind Op: every dispatch
branch produces Identifier, Int, Float, Ponct, Whitespace, Invalid or
Null. -/
theorem C8_never_op (l : Lexer) : (l.next).1.kind ≠ TokenKind.Op := by
  unfold Lexer.next
  split_ifs with h1 h2 h3 h4 h5
  · exact fun hk => TokenKind.noConfusion hk
  · obtain ⟨g1, g2, g3, g4, g5, g6, g7⟩ := numLoop_spec (l.maxPosition - l.position) l TokenKind.Int
    intro hk
    have hk2 : (Lexer.numLoop (l.maxPosition - l.position) l TokenKind.Int).2 =
        TokenKind.Op := hk
    rcases g7 with g | g <;> rw [g] at hk2 <;> exact TokenKind.noConfusion hk2
  · exact fun hk => TokenKind.noConfusion hk
  · exact fun hk => TokenKind.noConfusion hk
  · exact fun hk => TokenKind.noConfusion hk
  · exact fun hk => TokenKind.noConfusion hk

/-- C9: once the cursor is at (or past) the end of the buffer, next
returns a Null token with empty value at the current location and
leaves the state exactly unchanged, so every further call returns the
same Null token with the same location. -/
theorem C9_terminal_frame (l : Lexer) (h : l.maxPosition ≤ l.position) :
    l.next = (Token.mk TokenKind.Null [] (l.row, l.col), l) ∧
    ∀ n, Lexer.run n l = List.replicate n (Token.mk TokenKind.Null [] (l.row, l.col)) :=
  ⟨next_at_end l h, run_at_end l h⟩

/-- Witness for C9 on the empty buffer: the cursor is already at the
end and next returns the Null token at location (1, 1) with the state
unchanged. -/
theorem C9_terminal_frame_w :
    (Lexer.new []).maxPosition ≤ (Lexer.new []).position ∧
    Lexer.next (Lexer.new []) = (Token.mk TokenKind.Null [] (1, 1), Lexer.new []) :=
  ⟨by decide, (C9_terminal_frame (Lexer.new []) (by decide)).1⟩

/-- C10: the buffer "1.2.3" (bytes 49, 46, 50, 46, 51) is consumed by
one next call as a single Float token "1.2.3": each dot followed by a
digit is absorbed, with no stop at the second decimal point. -/
theorem C10_multi_dot_float :
    Lexer.run 1 (Lexer.new [49, 46, 50, 46, 51]) =
      [Token.mk TokenKind.Float [49, 46, 50, 46, 51] (1, 1)] := by
  decide

end Mylexer
